import Mathlib

/-!
Shallow embedding of the drossel journal (src/lib.rs): a durable FIFO queue
layered on an ordered key-value store (leveldb).  The store is modelled as an
association list sorted ascending by key, mirroring leveldb's ordered
iteration under the `OrdComparator` the journal registers.  All keys the
journal ever writes carry `KeyType::Queue` (cursors are initialised with
`keytype: Queue` and only their `id` field is ever mutated), and on equal
key types the registered comparator orders by `id`; the store is therefore
keyed by the numeric `id : Nat` alone.  Payloads (`Vec<u8>`) are byte lists.
Cursor ids are `u64` in the source; they are modelled as `Nat` (no run
modelled here performs 2^64 increments, so `+ 1` never wraps), except in
`Journal.len` where the `u64` subtraction `head - tail` can genuinely
underflow on reachable states and is modelled with wrapping semantics.
Code paths that panic — the `unwrap` of `iter.last()` in `read_keys` when
the store holds exactly two keys — are modelled as `none`.
-/

/-- The `KeyType` enum of the source (`#[repr(u64)]`, discriminants
`Queue = 0`, `Chunk = 1`, derived `Ord` = discriminant order). -/
inductive KeyType where
  | Queue : KeyType
  | Chunk : KeyType
deriving DecidableEq

/-- Discriminant of a `KeyType` (`Queue = 0`, `Chunk = 1`). -/
def ktTag : KeyType → Nat
  | .Queue => 0
  | .Chunk => 1

/-- The `Key` struct of the source: field order `id: u64`, `keytype: KeyType`. -/
structure Key where
  id : Nat
  keytype : KeyType
deriving DecidableEq

/-- The source's `impl Ord for Key`: compare `keytype` first (by its derived
order, i.e. by discriminant), then `id`. -/
def Key.cmp (a b : Key) : Ordering :=
  if ktTag a.keytype < ktTag b.keytype then Ordering.lt
  else if ktTag b.keytype < ktTag a.keytype then Ordering.gt
  else if a.id < b.id then Ordering.lt
  else if b.id < a.id then Ordering.gt
  else Ordering.eq

/-- Little-endian byte string of width `w` for the value `n` (x86-64 memory
image of a `u64` field). -/
def leBytes : Nat → Nat → List Nat
  | 0, _ => []
  | w + 1, n => (n % 256) :: leBytes w (n / 256)

/-- Value of a little-endian byte string. -/
def leVal : List Nat → Nat
  | [] => 0
  | b :: bs => b + 256 * leVal bs

/-- The source's `as_slice` (`Key::as_slice` transmutes the struct to its raw
16 memory bytes): the `id` field's 8 little-endian bytes followed by the
`keytype` discriminant's 8 little-endian bytes. -/
def encodeKey (k : Key) : List Nat :=
  leBytes 8 k.id ++ leBytes 8 (ktTag k.keytype)

/-- Inverse of `ktTag` on valid discriminants. -/
def ktOfTag (n : Nat) : Option KeyType :=
  if n = 0 then some KeyType.Queue
  else if n = 1 then some KeyType.Chunk
  else none

/-- The source's `from_u8` (`Key::from_u8` asserts the slice has length 16 and
transmutes it back into the struct): reads the `id` field from the first 8
bytes and the `keytype` discriminant from the last 8, both little-endian.  A
width other than 16 fails the assertion and a discriminant other than 0 or 1
is not a valid `KeyType`; both are modelled as `none`. -/
def decodeKey (bs : List Nat) : Option Key :=
  if bs.length = 16 then
    match ktOfTag (leVal (bs.drop 8)) with
    | some kt => some { id := leVal (bs.take 8), keytype := kt }
    | none => none
  else none

/-- Byte-lexicographic comparison of two byte strings (the default order a
generic byte-keyed store would use). -/
def lexCmp : List Nat → List Nat → Ordering
  | [], [] => Ordering.eq
  | [], _ :: _ => Ordering.lt
  | _ :: _, [] => Ordering.gt
  | a :: as, b :: bs =>
    if a < b then Ordering.lt
    else if b < a then Ordering.gt
    else lexCmp as bs

/-- `db.get(key)`: point lookup in the store. -/
def dbGet : List (Nat × List Nat) → Nat → Option (List Nat)
  | [], _ => none
  | (k, v) :: rest, i => if i = k then some v else dbGet rest i

/-- `db.put(key, value)`: insert or overwrite, keeping the list sorted by key
(the comparator order leveldb maintains). -/
def dbPut : List (Nat × List Nat) → Nat → List Nat → List (Nat × List Nat)
  | [], k, v => [(k, v)]
  | (k', v') :: rest, k, v =>
    if k < k' then (k, v) :: (k', v') :: rest
    else if k = k' then (k, v) :: rest
    else (k', v') :: dbPut rest k v

/-- `db.delete(key)`: remove the entry under `key` (a no-op when absent). -/
def dbDelete : List (Nat × List Nat) → Nat → List (Nat × List Nat)
  | [], _ => []
  | (k', v') :: rest, k => if k = k' then rest else (k', v') :: dbDelete rest k

/-- The `Journal` struct: the store plus the three cursors.  In the source the
cursors are `Key`s whose `keytype` is always `Queue`; only their `id`s are
kept here. -/
structure Journal where
  store : List (Nat × List Nat)
  head : Nat
  tail : Nat
  reserved_tail : Nat
deriving DecidableEq

/-- `Journal::new` on a fresh path: empty store, all cursors at id 0. -/
def Journal.fresh : Journal :=
  { store := [], head := 0, tail := 0, reserved_tail := 0 }

/-- Key id of the last entry of an association list, with a default for the
empty list. -/
def lastFst : List (Nat × List Nat) → Nat → Nat
  | [], d => d
  | (k, _) :: rest, _ => lastFst rest k

/-- `iter.last()` on the rest of an iterator: the last key id of the
remaining elements, or nothing when the iterator is already exhausted. -/
def lastFst? : List (Nat × List Nat) → Option Nat
  | [] => none
  | (k, _) :: rest => some (lastFst rest k)

/-- `Journal::read_keys`: scan the store's keys in ascending order; the result
triple is `(head, tail, reserved_tail)`, and `reserved_tail` is the id 0 key
in every branch.  No key: all cursors 0.  Exactly one key `k`:
`head = tail = k`.  Two or more keys: `tail` = the first key, and the source
then calls `iter.last().unwrap()` on the iterator *after* two `next()` calls
have consumed the first two keys — so with exactly two keys `last()` is
`None` and the `unwrap()` panics (modelled as `none`), while with three or
more keys `head` = the overall last key. -/
def read_keys : List (Nat × List Nat) → Option (Nat × Nat × Nat)
  | [] => some (0, 0, 0)
  | [(k, _)] => some (k, k, 0)
  | (k, _) :: _ :: rest =>
    match lastFst? rest with
    | none => none
    | some last => some (last, k, 0)

/-- `Journal::open` on a path whose store already exists: `open_existing`
succeeds and rebuilds the cursors with `read_keys`; the store's contents
survive the close unchanged.  `none` models the process abort when
`read_keys` panics (a store holding exactly two keys). -/
def Journal.reopen (j : Journal) : Option Journal :=
  match read_keys j.store with
  | none => none
  | some htr =>
    some { store := j.store, head := htr.1, tail := htr.2.1, reserved_tail := htr.2.2 }

/-- `Journal::push`: durably write the payload under the key at `head`, then
increment `head`. -/
def Journal.push (j : Journal) (data : List Nat) : Journal :=
  { j with store := dbPut j.store j.head data, head := j.head + 1 }

/-- `Journal::peek`: when `head.id >= tail.id`, read the entry under the
`tail` key (which may be absent); otherwise return nothing. -/
def Journal.peek (j : Journal) : Option (List Nat) :=
  if j.head ≥ j.tail then dbGet j.store j.tail else none

/-- `Journal::advance_to_next_reserved`: move `reserved_tail` to the first key
of an ascending scan of the store, if any. -/
def Journal.advance_to_next_reserved (j : Journal) : Journal :=
  match j.store with
  | [] => j
  | (k, _) :: _ => { j with reserved_tail := k }

/-- `Journal::remove`: durably delete the key at `tail` (when `reserved`) or
at `reserved_tail` (when not), then, only when `reserved`, advance
`reserved_tail` to the next remaining key. -/
def Journal.remove (j : Journal) (reserved : Bool) : Journal :=
  let key := if reserved then j.tail else j.reserved_tail
  let j1 := { j with store := dbDelete j.store key }
  if reserved then j1.advance_to_next_reserved else j1

/-- `Journal::pop`: when `head.id >= tail.id`, peek, then `remove(false)`,
then advance `tail` only when a value was obtained; otherwise return nothing
and leave the state alone. -/
def Journal.pop (j : Journal) : Option (List Nat) × Journal :=
  if j.head ≥ j.tail then
    let res := j.peek
    let j1 := j.remove false
    let j2 := if res.isSome then { j1 with tail := j1.tail + 1 } else j1
    (res, j2)
  else (none, j)

/-- `Journal::len`: the `u64` subtraction `head.id - tail.id`.  Modelled with
`u64` wrapping semantics, since states with `tail > head` are reachable
(release builds wrap; debug builds panic at the same states). -/
def Journal.len (j : Journal) : Nat :=
  (2 ^ 64 + j.head - j.tail) % 2 ^ 64

/-- Push a whole sequence of payloads in order. -/
def pushAll (j : Journal) : List (List Nat) → Journal
  | [] => j
  | p :: ps => pushAll (j.push p) ps

/-- Perform `k` pops, collecting the results in the order they were
returned. -/
def popN (j : Journal) : Nat → List (Option (List Nat)) × Journal
  | 0 => ([], j)
  | k + 1 =>
    let r := j.pop
    let rs := popN r.2 k
    (r.1 :: rs.1, rs.2)

/-- Run `k` pops on the journal produced by a reopen, collecting the results;
nothing when the reopen itself panicked. -/
def popNAfter (o : Option Journal) (k : Nat) : Option (List (Option (List Nat))) :=
  match o with
  | none => none
  | some j => some (popN j k).1

/-- The journal states reachable from a freshly created journal through its
public mutating operations `push` and `pop` (`peek` and `len` take `&self`
and mutate nothing; `remove` and `advance_to_next_reserved` are private and
only ever run inside `pop`). -/
inductive Reachable : Journal → Prop where
  | fresh : Reachable Journal.fresh
  | push (j : Journal) (p : List Nat) : Reachable j → Reachable (j.push p)
  | pop (j : Journal) : Reachable j → Reachable j.pop.2

/-- The store shape that arises in the runs below: one entry under every key
id in the interval `[a, b)`, with payloads given by `f`. -/
def rangeStore (a b : Nat) (f : Nat → List Nat) : List (Nat × List Nat) :=
  (List.range' a (b - a)).map (fun i => (i, f i))

theorem rangeStore_nil (f : Nat → List Nat) {a b : Nat} (h : b ≤ a) :
    rangeStore a b f = [] := by
  unfold rangeStore
  have : b - a = 0 := Nat.sub_eq_zero_of_le h
  rw [this]
  rfl

theorem rangeStore_cons (f : Nat → List Nat) {a b : Nat} (h : a < b) :
    rangeStore a b f = (a, f a) :: rangeStore (a + 1) b f := by
  unfold rangeStore
  have h1 : b - a = (b - (a + 1)) + 1 := by omega
  rw [h1, List.range'_succ]
  rfl

theorem rangeStore_concat (f : Nat → List Nat) {a b : Nat} (h : a ≤ b) :
    rangeStore a (b + 1) f = rangeStore a b f ++ [(b, f b)] := by
  unfold rangeStore
  have h1 : b + 1 - a = (b - a) + 1 := by omega
  rw [h1, List.range'_concat, List.map_append]
  have h2 : a + 1 * (b - a) = b := by omega
  rw [h2]
  rfl

theorem rangeStore_keys (f : Nat → List Nat) (a b : Nat) :
    (rangeStore a b f).map Prod.fst = List.range' a (b - a) := by
  unfold rangeStore
  rw [List.map_map]
  exact List.map_id'' (fun _ => rfl) _

theorem rangeStore_congr {f g : Nat → List Nat} {a b : Nat}
    (h : ∀ i, a ≤ i → i < b → f i = g i) :
    rangeStore a b f = rangeStore a b g := by
  unfold rangeStore
  refine List.map_congr_left ?_
  intro i hi
  rw [List.mem_range'_1] at hi
  rcases le_or_lt a b with hab | hab
  · have : a + (b - a) = b := by omega
    rw [h i hi.1 (by omega)]
  · omega

theorem dbGet_range' (f : Nat → List Nat) :
    ∀ (m a k : Nat), dbGet ((List.range' a m).map (fun i => (i, f i))) k =
      if a ≤ k ∧ k < a + m then some (f k) else none := by
  intro m
  induction m with
  | zero =>
    intro a k
    show (none : Option (List Nat)) = _
    rw [if_neg (by omega : ¬(a ≤ k ∧ k < a + 0))]
  | succ m ih =>
    intro a k
    rw [List.range'_succ, List.map_cons]
    show (if k = a then some (f a) else _) = _
    by_cases hk : k = a
    · subst hk
      rw [if_pos rfl, if_pos (by omega)]
    · rw [if_neg hk, ih (a + 1) k]
      by_cases h1 : a + 1 ≤ k ∧ k < a + 1 + m
      · rw [if_pos h1, if_pos (by omega)]
      · rw [if_neg h1, if_neg (by omega)]

theorem dbGet_rangeStore (f : Nat → List Nat) (a b k : Nat) :
    dbGet (rangeStore a b f) k = if a ≤ k ∧ k < b then some (f k) else none := by
  unfold rangeStore
  rw [dbGet_range' f (b - a) a k]
  rcases le_or_lt a b with hab | hab
  · have : a + (b - a) = b := by omega
    rw [this]
  · rw [if_neg (by omega), if_neg (by omega)]

theorem dbDelete_not_mem : ∀ (s : List (Nat × List Nat)) (k : Nat),
    k ∉ s.map Prod.fst → dbDelete s k = s := by
  intro s
  induction s with
  | nil => intro k _; rfl
  | cons x rest ih =>
    intro k hk
    obtain ⟨k', v'⟩ := x
    rw [List.map_cons, List.mem_cons] at hk
    push_neg at hk
    show (if k = k' then rest else (k', v') :: dbDelete rest k) = _
    rw [if_neg hk.1, ih k hk.2]

theorem dbDelete_rangeStore_head (f : Nat → List Nat) {a b : Nat} (h : a < b) :
    dbDelete (rangeStore a b f) a = rangeStore (a + 1) b f := by
  rw [rangeStore_cons f h]
  show (if a = a then _ else _) = _
  rw [if_pos rfl]

theorem dbDelete_rangeStore_lo (f : Nat → List Nat) {a b k : Nat} (h : k < a) :
    dbDelete (rangeStore a b f) k = rangeStore a b f := by
  refine dbDelete_not_mem _ _ ?_
  rw [rangeStore_keys, List.mem_range'_1]
  omega

theorem dbPut_all_lt : ∀ (s : List (Nat × List Nat)) (k : Nat) (v : List Nat),
    (∀ x ∈ s, x.1 < k) → dbPut s k v = s ++ [(k, v)] := by
  intro s
  induction s with
  | nil => intro k v _; rfl
  | cons x rest ih =>
    intro k v hlt
    obtain ⟨k', v'⟩ := x
    have hk' : k' < k := hlt (k', v') (List.mem_cons_self _ _)
    show (if k < k' then _ else if k = k' then _ else (k', v') :: dbPut rest k v) = _
    rw [if_neg (by omega), if_neg (by omega), ih k v (by
      intro x hx
      exact hlt x (List.mem_cons_of_mem _ hx))]
    rfl

theorem dbPut_rangeStore (f : Nat → List Nat) {a b : Nat} (h : a ≤ b) (v : List Nat) :
    dbPut (rangeStore a b f) b v = rangeStore a b f ++ [(b, v)] := by
  refine dbPut_all_lt _ _ _ ?_
  intro x hx
  have : x.1 ∈ (rangeStore a b f).map Prod.fst := List.mem_map_of_mem Prod.fst hx
  rw [rangeStore_keys, List.mem_range'_1] at this
  omega

theorem dbDelete_sublist : ∀ (s : List (Nat × List Nat)) (k : Nat),
    List.Sublist (dbDelete s k) s := by
  intro s
  induction s with
  | nil => intro k; exact List.Sublist.refl []
  | cons x rest ih =>
    intro k
    obtain ⟨k', v'⟩ := x
    show List.Sublist (if k = k' then rest else (k', v') :: dbDelete rest k) _
    by_cases hk : k = k'
    · rw [if_pos hk]; exact List.sublist_cons_self _ _
    · rw [if_neg hk]; exact (ih k).cons₂ _

theorem dbGet_not_mem : ∀ (s : List (Nat × List Nat)) (k : Nat),
    k ∉ s.map Prod.fst → dbGet s k = none := by
  intro s
  induction s with
  | nil => intro k _; rfl
  | cons x rest ih =>
    intro k hk
    obtain ⟨k', v'⟩ := x
    rw [List.map_cons, List.mem_cons] at hk
    push_neg at hk
    show (if k = k' then some v' else dbGet rest k) = none
    rw [if_neg hk.1, ih k hk.2]

theorem dbGet_dbDelete_self : ∀ (s : List (Nat × List Nat)) (k : Nat),
    (s.map Prod.fst).Nodup → dbGet (dbDelete s k) k = none := by
  intro s
  induction s with
  | nil => intro k _; rfl
  | cons x rest ih =>
    intro k hnd
    obtain ⟨k', v'⟩ := x
    rw [List.map_cons, List.nodup_cons] at hnd
    show dbGet (if k = k' then rest else (k', v') :: dbDelete rest k) k = none
    by_cases hk : k = k'
    · rw [if_pos hk]
      subst hk
      exact dbGet_not_mem rest k hnd.1
    · rw [if_neg hk]
      show (if k = k' then some v' else dbGet (dbDelete rest k) k) = none
      rw [if_neg hk, ih k hnd.2]

theorem remove_false_eq (j : Journal) :
    j.remove false = { j with store := dbDelete j.store j.reserved_tail } := rfl

theorem remove_true_eq (j : Journal) :
    j.remove true =
      Journal.advance_to_next_reserved { j with store := dbDelete j.store j.tail } := rfl

theorem pop_eq_pos (j : Journal) (h : j.head ≥ j.tail) :
    j.pop = (j.peek,
      if j.peek.isSome
      then { j with store := dbDelete j.store j.reserved_tail, tail := j.tail + 1 }
      else { j with store := dbDelete j.store j.reserved_tail }) := by
  unfold Journal.pop
  rw [if_pos h]
  rfl

theorem pop_eq_neg (j : Journal) (h : ¬ j.head ≥ j.tail) :
    j.pop = (none, j) := by
  unfold Journal.pop
  rw [if_neg h]

theorem popN_zero (j : Journal) : popN j 0 = ([], j) := rfl

theorem popN_succ (j : Journal) (k : Nat) :
    popN j (k + 1) = (j.pop.1 :: (popN j.pop.2 k).1, (popN j.pop.2 k).2) := rfl

theorem lastFst_range' (f : Nat → List Nat) :
    ∀ (m a d : Nat), lastFst ((List.range' a m).map (fun i => (i, f i))) d =
      if m = 0 then d else a + m - 1 := by
  intro m
  induction m with
  | zero => intro a d; rw [if_pos rfl]; rfl
  | succ m ih =>
    intro a d
    rw [List.range'_succ, List.map_cons]
    show lastFst ((List.range' (a + 1) m).map (fun i => (i, f i))) a = _
    rw [ih (a + 1) a]
    rw [if_neg (by omega : ¬ (m + 1 = 0))]
    by_cases hm : m = 0
    · rw [if_pos hm]
      omega
    · rw [if_neg hm]
      omega

theorem read_keys_rangeStore_nil (f : Nat → List Nat) {a b : Nat} (h : b ≤ a) :
    read_keys (rangeStore a b f) = some (0, 0, 0) := by
  rw [rangeStore_nil f h]
  rfl

theorem read_keys_rangeStore_one (f : Nat → List Nat) {a b : Nat} (h : b = a + 1) :
    read_keys (rangeStore a b f) = some (a, a, 0) := by
  subst h
  rw [rangeStore_cons f (by omega), rangeStore_nil f (by omega)]
  rfl

theorem read_keys_rangeStore_double (f : Nat → List Nat) {a b : Nat} (h : b = a + 2) :
    read_keys (rangeStore a b f) = none := by
  subst h
  rw [rangeStore_cons f (by omega : a < a + 2), rangeStore_cons f (by omega : a + 1 < a + 2),
    rangeStore_nil f (by omega : a + 2 ≤ a + 2)]
  rfl

theorem read_keys_rangeStore_big (f : Nat → List Nat) {a b : Nat} (h : a + 3 ≤ b) :
    read_keys (rangeStore a b f) = some (b - 1, a, 0) := by
  rw [rangeStore_cons f (by omega : a < b), rangeStore_cons f (by omega : a + 1 < b),
    rangeStore_cons f (by omega : a + 2 < b)]
  show some (lastFst (rangeStore (a + 3) b f) (a + 2), a, 0) = _
  unfold rangeStore
  rw [lastFst_range' f (b - (a + 3)) (a + 3) (a + 2)]
  have hv : (if b - (a + 3) = 0 then a + 2 else a + 3 + (b - (a + 3)) - 1) = b - 1 := by
    split_ifs <;> omega
  rw [hv]

theorem len_eq (j : Journal) (h1 : j.tail ≤ j.head) (h2 : j.head - j.tail < 2 ^ 64) :
    j.len = j.head - j.tail := by
  unfold Journal.len
  have hp : (2 : Nat) ^ 64 = 18446744073709551616 := by norm_num
  rw [hp] at h2 ⊢
  omega

theorem peek_rangeStore (f : Nat → List Nat) {a b hd t : Nat} (hg : hd ≥ t)
    (h1 : a ≤ t) (h2 : t < b) :
    Journal.peek { store := rangeStore a b f, head := hd, tail := t, reserved_tail := 0 } =
      some (f t) := by
  unfold Journal.peek
  rw [if_pos hg]
  show dbGet (rangeStore a b f) t = _
  rw [dbGet_rangeStore, if_pos ⟨h1, h2⟩]

theorem pop_step_zero (f : Nat → List Nat) (b : Nat) (hb : 0 < b) (hd : Nat) :
    Journal.pop { store := rangeStore 0 b f, head := hd, tail := 0, reserved_tail := 0 } =
      (some (f 0), { store := rangeStore 1 b f, head := hd, tail := 1, reserved_tail := 0 }) := by
  rw [pop_eq_pos _ (Nat.zero_le hd)]
  rw [peek_rangeStore f (Nat.zero_le hd) (le_refl 0) hb]
  simp only [Option.isSome_some, if_true]
  show (some (f 0), ({ store := dbDelete (rangeStore 0 b f) 0, head := hd, tail := 0 + 1, reserved_tail := 0 } : Journal)) = _
  rw [dbDelete_rangeStore_head f hb]

theorem popN_run (f : Nat → List Nat) (a b hd : Nat) (ha : 1 ≤ a) :
    ∀ (k t : Nat), a ≤ t → t + k ≤ b → t + k ≤ hd + 1 →
    popN { store := rangeStore a b f, head := hd, tail := t, reserved_tail := 0 } k =
      ((List.range' t k).map (fun i => some (f i)),
       { store := rangeStore a b f, head := hd, tail := t + k, reserved_tail := 0 }) := by
  intro k
  induction k with
  | zero =>
    intro t h1 h2 h3
    rw [popN_zero]
    rfl
  | succ k ih =>
    intro t h1 h2 h3
    have hguard : hd ≥ t := by omega
    have hpop : Journal.pop { store := rangeStore a b f, head := hd, tail := t, reserved_tail := 0 } = (some (f t), { store := rangeStore a b f, head := hd, tail := t + 1, reserved_tail := 0 }) := by
      rw [pop_eq_pos _ hguard]
      rw [peek_rangeStore f hguard h1 (by omega)]
      simp only [Option.isSome_some, if_true]
      show (some (f t), ({ store := dbDelete (rangeStore a b f) 0, head := hd, tail := t + 1, reserved_tail := 0 } : Journal)) = _
      rw [dbDelete_rangeStore_lo f (by omega : 0 < a)]
    rw [popN_succ, hpop]
    show (some (f t) :: (popN _ k).1, (popN _ k).2) = _
    rw [ih (t + 1) (by omega) (by omega) (by omega)]
    rw [List.range'_succ]
    have harith : t + 1 + k = t + (k + 1) := by omega
    rw [harith]
    rfl

/-- The canonical journal state reached by pushing the payload sequence `ps`
into a freshly created journal: one entry per key id in `[0, ps.length)` and
`head = ps.length`, the two tail cursors still at 0. -/
def mkJ (ps : List (List Nat)) : Journal :=
  { store := rangeStore 0 ps.length (fun i => ps.getD i [])
    head := ps.length
    tail := 0
    reserved_tail := 0 }

theorem push_mkJ (qs : List (List Nat)) (p : List Nat) :
    (mkJ qs).push p = mkJ (qs ++ [p]) := by
  have hstore : dbPut (rangeStore 0 qs.length (fun i => qs.getD i [])) qs.length p =
      rangeStore 0 (qs ++ [p]).length (fun i => (qs ++ [p]).getD i []) := by
    rw [dbPut_rangeStore _ (Nat.zero_le _) p]
    have hlen : (qs ++ [p]).length = qs.length + 1 := by simp
    rw [hlen, rangeStore_concat _ (Nat.zero_le _)]
    congr 1
    · refine rangeStore_congr ?_
      intro i hi1 hi2
      exact (List.getD_append qs [p] [] i hi2).symm
    · have hp : (qs ++ [p]).getD qs.length [] = p := by
        rw [List.getD_append_right qs [p] [] qs.length (le_refl _)]
        simp
      rw [hp]
  show ({ store := dbPut (rangeStore 0 qs.length (fun i => qs.getD i [])) qs.length p, head := qs.length + 1, tail := 0, reserved_tail := 0 } : Journal) = _
  rw [hstore]
  unfold mkJ
  have hlen : (qs ++ [p]).length = qs.length + 1 := by simp
  rw [hlen]

theorem pushAll_mkJ : ∀ (ps qs : List (List Nat)), pushAll (mkJ qs) ps = mkJ (qs ++ ps) := by
  intro ps
  induction ps with
  | nil =>
    intro qs
    show mkJ qs = _
    rw [List.append_nil]
  | cons p ps ih =>
    intro qs
    show pushAll ((mkJ qs).push p) ps = _
    rw [push_mkJ, ih (qs ++ [p]), List.append_assoc]
    rfl

theorem pushAll_fresh (ps : List (List Nat)) : pushAll Journal.fresh ps = mkJ ps := by
  have h : Journal.fresh = mkJ [] := rfl
  rw [h, pushAll_mkJ ps []]
  rfl

theorem range'_map_getD : ∀ (ps qs : List (List Nat)),
    (List.range' qs.length ps.length).map (fun i => some ((qs ++ ps).getD i [])) =
      ps.map some := by
  intro ps
  induction ps with
  | nil => intro qs; rfl
  | cons p ps ih =>
    intro qs
    rw [List.length_cons, List.range'_succ, List.map_cons, List.map_cons]
    congr 1
    · rw [List.getD_append_right qs (p :: ps) [] qs.length (le_refl _)]
      simp
    · have := ih (qs ++ [p])
      rw [List.length_append] at this
      have hl : qs.length + [p].length = qs.length + 1 := rfl
      rw [hl, List.append_assoc] at this
      exact this

theorem popN_all (p : List Nat) (l : List (List Nat)) (hd : Nat) (hhd : l.length ≤ hd) :
    popN { store := rangeStore 0 (l.length + 1) (fun i => (p :: l).getD i []), head := hd, tail := 0, reserved_tail := 0 } (l.length + 1) =
      ((p :: l).map some, { store := rangeStore 1 (l.length + 1) (fun i => (p :: l).getD i []), head := hd, tail := l.length + 1, reserved_tail := 0 }) := by
  rw [popN_succ]
  rw [pop_step_zero (fun i => (p :: l).getD i []) (l.length + 1) (by omega) hd]
  show (some ((p :: l).getD 0 []) :: (popN { store := rangeStore 1 (l.length + 1) (fun i => (p :: l).getD i []), head := hd, tail := 1, reserved_tail := 0 } l.length).1, (popN { store := rangeStore 1 (l.length + 1) (fun i => (p :: l).getD i []), head := hd, tail := 1, reserved_tail := 0 } l.length).2) = _
  rw [popN_run (fun i => (p :: l).getD i []) 1 (l.length + 1) hd (le_refl 1)
      l.length 1 (le_refl 1) (by omega) (by omega)]
  have hm := range'_map_getD l [p]
  have hl1 : [p].length = 1 := rfl
  rw [hl1, List.singleton_append] at hm
  rw [hm]
  have harith : 1 + l.length = l.length + 1 := by omega
  rw [harith]
  rfl

/-- C1: pushing the payloads p1..pn, in order, onto a freshly opened empty
journal and then popping n times returns some p1, some p2, ..., some pn in
exactly that order (FIFO). -/
theorem C1_push_pop_fifo (ps : List (List Nat)) :
    (popN (pushAll Journal.fresh ps) ps.length).1 = ps.map some := by
  rw [pushAll_fresh]
  cases ps with
  | nil => rfl
  | cons p l =>
    have hmk : mkJ (p :: l) = { store := rangeStore 0 (l.length + 1) (fun i => (p :: l).getD i []), head := l.length + 1, tail := 0, reserved_tail := 0 } := rfl
    have hlen : (p :: l).length = l.length + 1 := rfl
    rw [hmk, hlen, popN_all p l (l.length + 1) (by omega)]

theorem read_keys_rangeStore_pos (f : Nat → List Nat) {a b : Nat} (h : a < b)
    (h2 : b ≠ a + 2) :
    read_keys (rangeStore a b f) = some (b - 1, a, 0) := by
  rcases Nat.lt_or_ge (a + 2) b with h3 | h3
  · exact read_keys_rangeStore_big f (by omega)
  · have hb : b = a + 1 := by omega
    rw [read_keys_rangeStore_one f hb, hb]
    have h4 : a + 1 - 1 = a := by omega
    rw [h4]

theorem reopen_rangeStore (f : Nat → List Nat) {a b : Nat} (h : a < b) (h2 : b ≠ a + 2)
    (hd t r : Nat) :
    Journal.reopen { store := rangeStore a b f, head := hd, tail := t, reserved_tail := r } =
      some { store := rangeStore a b f, head := b - 1, tail := a, reserved_tail := 0 } := by
  unfold Journal.reopen
  rw [read_keys_rangeStore_pos f h h2]

theorem reopen_rangeStore_nil (f : Nat → List Nat) {a b : Nat} (h : b ≤ a) (hd t r : Nat) :
    Journal.reopen { store := rangeStore a b f, head := hd, tail := t, reserved_tail := r } =
      some { store := rangeStore a b f, head := 0, tail := 0, reserved_tail := 0 } := by
  unfold Journal.reopen
  rw [read_keys_rangeStore_nil f h]

theorem reopen_rangeStore_double (f : Nat → List Nat) {a b : Nat} (h : b = a + 2)
    (hd t r : Nat) :
    Journal.reopen { store := rangeStore a b f, head := hd, tail := t, reserved_tail := r } =
      none := by
  unfold Journal.reopen
  rw [read_keys_rangeStore_double f h]

/-- C2 counterexample: a freshly opened journal with one pushed entry [9] has
len() 1, but a clean close and reopen at the same location reconstructs the
state with head = tail = 0 and len() 0, not 1.  Moreover, after pushes
[1],[2],[3],[4] and two pops (delivering [1] and [2]), the live keys are
1, 2, 3; a close and reopen succeeds and makes the next pop re-deliver [2],
already delivered before the close, where the uninterrupted journal's next
pop delivers [3]. -/
theorem C2_counterexample :
    (pushAll Journal.fresh [[9]]).len = 1 ∧
    Journal.reopen (pushAll Journal.fresh [[9]]) = some ⟨[(0, [9])], 0, 0, 0⟩ ∧
    Journal.len ⟨[(0, [9])], 0, 0, 0⟩ = 0 ∧
    (popN (pushAll Journal.fresh [[1], [2], [3], [4]]) 2).2 =
      ⟨[(1, [2]), (2, [3]), (3, [4])], 4, 2, 0⟩ ∧
    Journal.reopen ⟨[(1, [2]), (2, [3]), (3, [4])], 4, 2, 0⟩ =
      some ⟨[(1, [2]), (2, [3]), (3, [4])], 3, 1, 0⟩ ∧
    (Journal.pop ⟨[(1, [2]), (2, [3]), (3, [4])], 3, 1, 0⟩).1 = some [2] ∧
    (Journal.pop ⟨[(1, [2]), (2, [3]), (3, [4])], 4, 2, 0⟩).1 = some [3] := by
  refine ⟨by decide, by decide, by decide, by decide, by decide, by decide, by decide⟩

/-- C2 (corrected): consider a clean close of a journal reached from a freshly
opened empty journal by pushes and at most one pop, with m live entries
(m = pushes - pops, since one pop deletes exactly the key 0 entry).  When
m = 2 the reopen does not reconstruct anything: read_keys panics on the
unwrap of iter.last() over the exhausted iterator (modelled as none).
Otherwise the reopen succeeds with len() = m - 1 (Nat subtraction: 0 when
empty) — one less than the claim's m, because recovery sets head to the
largest live key instead of one past it — and the following m pops return
the remaining entries in the same FIFO order.  With two or more pops before
the close, a successful recovery also re-delivers stale entries whose keys
were never deleted (see the counterexample). -/
theorem C2_recovery (ps : List (List Nat)) (k : Nat) (hk : k ≤ 1)
    (hkn : k ≤ ps.length) (hbound : ps.length < 2 ^ 64) :
    (ps.length - k = 2 → Journal.reopen (popN (pushAll Journal.fresh ps) k).2 = none) ∧
    (ps.length - k ≠ 2 →
      (Journal.reopen (popN (pushAll Journal.fresh ps) k).2).map Journal.len =
        some (ps.length - k - 1) ∧
      popNAfter (Journal.reopen (popN (pushAll Journal.fresh ps) k).2) (ps.length - k) =
        some ((ps.drop k).map some)) := by
  rw [pushAll_fresh]
  interval_cases k
  · rw [popN_zero]
    cases ps with
    | nil => exact ⟨fun habs => absurd habs (by decide), fun _ => ⟨rfl, rfl⟩⟩
    | cons p l =>
      have hmk : (([] : List (Option (List Nat))), mkJ (p :: l)).2 = { store := rangeStore 0 (l.length + 1) (fun i => (p :: l).getD i []), head := l.length + 1, tail := 0, reserved_tail := 0 } := rfl
      rw [hmk]
      by_cases hl2 : l.length = 1
      · refine ⟨fun _ => ?_, fun hne => absurd (by simp only [List.length_cons]; omega) hne⟩
        exact reopen_rangeStore_double (fun i => (p :: l).getD i [])
          (by omega : l.length + 1 = 0 + 2) (l.length + 1) 0 0
      · refine ⟨fun habs => absurd habs (by simp only [List.length_cons]; omega), fun _ => ?_⟩
        rw [reopen_rangeStore (fun i => (p :: l).getD i []) (by omega : 0 < l.length + 1)
            (by omega : l.length + 1 ≠ 0 + 2) (l.length + 1) 0 0]
        have hh : l.length + 1 - 1 = l.length := by omega
        rw [hh]
        simp only [List.length_cons] at hbound
        constructor
        · show some (Journal.len { store := rangeStore 0 (l.length + 1) (fun i => (p :: l).getD i []), head := l.length, tail := 0, reserved_tail := 0 }) = some ((p :: l).length - 0 - 1)
          rw [len_eq _ (Nat.zero_le _) (by omega : l.length - 0 < 2 ^ 64)]
          show some (l.length - 0) = some ((p :: l).length - 0 - 1)
          have harith : l.length - 0 = (p :: l).length - 0 - 1 := by
            simp only [List.length_cons]
            omega
          rw [harith]
        · have hc : (p :: l).length - 0 = l.length + 1 := rfl
          rw [hc]
          show some ((popN { store := rangeStore 0 (l.length + 1) (fun i => (p :: l).getD i []), head := l.length, tail := 0, reserved_tail := 0 } (l.length + 1)).1) = some (((p :: l).drop 0).map some)
          rw [popN_all p l l.length (le_refl _)]
          rfl
  · cases ps with
    | nil => simp at hkn
    | cons p l =>
      have h1 : (popN (mkJ (p :: l)) 1).2 = { store := rangeStore 1 (l.length + 1) (fun i => (p :: l).getD i []), head := l.length + 1, tail := 1, reserved_tail := 0 } := by
        have hmk : mkJ (p :: l) = { store := rangeStore 0 (l.length + 1) (fun i => (p :: l).getD i []), head := l.length + 1, tail := 0, reserved_tail := 0 } := rfl
        rw [popN_succ, popN_zero, hmk]
        rw [pop_step_zero (fun i => (p :: l).getD i []) (l.length + 1) (by omega) (l.length + 1)]
      rw [h1]
      by_cases hl2 : l.length = 2
      · refine ⟨fun _ => ?_, fun hne => absurd (by simp only [List.length_cons]; omega) hne⟩
        exact reopen_rangeStore_double (fun i => (p :: l).getD i [])
          (by omega : l.length + 1 = 1 + 2) (l.length + 1) 1 0
      · refine ⟨fun habs => absurd habs (by simp only [List.length_cons]; omega), fun _ => ?_⟩
        cases l with
        | nil =>
          rw [reopen_rangeStore_nil (fun i => [p].getD i [])
              (by simp : ([] : List (List Nat)).length + 1 ≤ 1)
              (([] : List (List Nat)).length + 1) 1 0]
          constructor
          · show some (Journal.len { store := rangeStore 1 (([] : List (List Nat)).length + 1) (fun i => [p].getD i []), head := 0, tail := 0, reserved_tail := 0 }) = some (([p] : List (List Nat)).length - 1 - 1)
            rw [len_eq _ (le_refl 0) (by omega : (0 : Nat) - 0 < 2 ^ 64)]
            rfl
          · rfl
        | cons q r =>
          rw [reopen_rangeStore (fun i => (p :: q :: r).getD i [])
              (by simp only [List.length_cons]; omega : 1 < (q :: r).length + 1)
              (by simp only [List.length_cons] at hl2 ⊢; omega : (q :: r).length + 1 ≠ 1 + 2)
              ((q :: r).length + 1) 1 0]
          rw [Nat.add_sub_cancel]
          simp only [List.length_cons] at hbound
          constructor
          · show some (Journal.len { store := rangeStore 1 ((q :: r).length + 1) (fun i => (p :: q :: r).getD i []), head := (q :: r).length, tail := 1, reserved_tail := 0 }) = some ((p :: q :: r).length - 1 - 1)
            rw [len_eq _ (by simp only [List.length_cons]; omega : (1 : Nat) ≤ (q :: r).length)
                (by simp only [List.length_cons]; omega : (q :: r).length - 1 < 2 ^ 64)]
            show some ((q :: r).length - 1) = some ((p :: q :: r).length - 1 - 1)
            have harith : (q :: r).length - 1 = (p :: q :: r).length - 1 - 1 := by
              simp only [List.length_cons]
              omega
            rw [harith]
          · have hc : (p :: q :: r).length - 1 = (q :: r).length := rfl
            show some ((popN { store := rangeStore 1 ((q :: r).length + 1) (fun i => (p :: q :: r).getD i []), head := (q :: r).length, tail := 1, reserved_tail := 0 } ((p :: q :: r).length - 1)).1) = some (((p :: q :: r).drop 1).map some)
            rw [hc]
            rw [popN_run (fun i => (p :: q :: r).getD i []) 1 ((q :: r).length + 1)
                (q :: r).length (le_refl 1) (q :: r).length 1 (le_refl 1)
                (by omega) (by omega)]
            have hm := range'_map_getD (q :: r) [p]
            have hl1 : [p].length = 1 := rfl
            rw [hl1, List.singleton_append] at hm
            show some ((List.range' 1 (q :: r).length).map (fun i => some ((p :: q :: r).getD i []))) = _
            rw [hm]
            rfl

/-- Witness for C2_recovery at ps = [[1],[2],[3],[4]], k = 1 (three live
entries after the pop, so the reopen succeeds). -/
theorem C2_recovery_witness :
    (1 ≤ 1 ∧ 1 ≤ ([[1], [2], [3], [4]] : List (List Nat)).length ∧
      ([[1], [2], [3], [4]] : List (List Nat)).length < 2 ^ 64) ∧
    ((([[1], [2], [3], [4]] : List (List Nat)).length - 1 = 2 →
        Journal.reopen (popN (pushAll Journal.fresh [[1], [2], [3], [4]]) 1).2 = none) ∧
      (([[1], [2], [3], [4]] : List (List Nat)).length - 1 ≠ 2 →
        (Journal.reopen (popN (pushAll Journal.fresh [[1], [2], [3], [4]]) 1).2).map
            Journal.len =
          some (([[1], [2], [3], [4]] : List (List Nat)).length - 1 - 1) ∧
        popNAfter (Journal.reopen (popN (pushAll Journal.fresh [[1], [2], [3], [4]]) 1).2)
            (([[1], [2], [3], [4]] : List (List Nat)).length - 1) =
          some ((([[1], [2], [3], [4]] : List (List Nat)).drop 1).map some))) :=
  ⟨⟨le_refl 1, by decide, by decide⟩,
    C2_recovery [[1], [2], [3], [4]] 1 (le_refl 1) (by decide) (by decide)⟩

/-- C7 counterexample: reopening a single-entry store (push [9], close,
reopen) succeeds and yields head = tail = 0, i.e. head ≤ tail, yet peek()
returns some [9] rather than none — the code's guard is head ≥ tail, so at
equality it still reads the tail key. -/
theorem C7_counterexample :
    Journal.reopen (pushAll Journal.fresh [[9]]) = some ⟨[(0, [9])], 0, 0, 0⟩ ∧
    (⟨[(0, [9])], 0, 0, 0⟩ : Journal).head ≤ (⟨[(0, [9])], 0, 0, 0⟩ : Journal).tail ∧
    (⟨[(0, [9])], 0, 0, 0⟩ : Journal).peek = some [9] := by
  refine ⟨by decide, by decide, by decide⟩

/-- C7 (corrected): peek() returns none whenever head < tail (strictly, not
whenever head ≤ tail); whenever head ≥ tail — including head = tail — it
returns exactly what the store holds under the tail key (none when no such
entry exists).  It takes the journal by shared reference, so it mutates none
of the three cursors by construction (its type here is a pure function). -/
theorem C7_peek_spec (j : Journal) :
    j.peek = if j.head < j.tail then none else dbGet j.store j.tail := by
  unfold Journal.peek
  rcases Nat.lt_or_ge j.head j.tail with h | h
  · rw [if_neg (by omega : ¬ j.head ≥ j.tail), if_pos h]
  · rw [if_pos h, if_neg (by omega : ¬ j.head < j.tail)]

/-- C6 counterexample: in the recovered singleton state (push [9], close,
reopen: head = tail = 0 with the entry still stored under key 0), pop()
returns some [9] — a pop that returns a value — but len() does not decrease
by 1: it is 0 before and the u64 subtraction head - tail wraps to 2^64 - 1
after (a debug build would panic instead). -/
theorem C6_counterexample :
    Journal.reopen (pushAll Journal.fresh [[9]]) = some ⟨[(0, [9])], 0, 0, 0⟩ ∧
    (Journal.pop ⟨[(0, [9])], 0, 0, 0⟩).1 = some [9] ∧
    Journal.len ⟨[(0, [9])], 0, 0, 0⟩ = 0 ∧
    Journal.len (Journal.pop ⟨[(0, [9])], 0, 0, 0⟩).2 = 2 ^ 64 - 1 := by
  refine ⟨by decide, by decide, by decide, by decide⟩

/-- C6 (corrected): on states whose cursors satisfy tail ≤ head (with the
difference small enough not to wrap), a push increases len() by exactly 1,
and a pop that returns a value from a state with tail < head decreases len()
by exactly 1; a pop on a journal whose store is empty returns none and leaves
the entire state — in particular len() — unchanged.  The claim's unrestricted
version fails in the recovered singleton state, where a pop returns a value
while len() wraps from 0 to 2^64 - 1 (see the counterexample). -/
theorem C6_len_ops (j : Journal) (p : List Nat) (h1 : j.tail ≤ j.head)
    (h2 : j.head - j.tail + 1 < 2 ^ 64) :
    (j.push p).len = j.len + 1 ∧
    (j.tail < j.head → (j.pop).1.isSome → (j.pop).2.len = j.len - 1) ∧
    (j.store = [] → j.pop = (none, j)) := by
  obtain ⟨s, hd, t, r⟩ := j
  change t ≤ hd at h1
  change hd - t + 1 < 2 ^ 64 at h2
  refine ⟨?_, ?_, ?_⟩
  · have hp : Journal.push ⟨s, hd, t, r⟩ p = ⟨dbPut s hd p, hd + 1, t, r⟩ := rfl
    rw [hp]
    rw [len_eq ⟨dbPut s hd p, hd + 1, t, r⟩ (by change t ≤ hd + 1; omega)
        (by change hd + 1 - t < 2 ^ 64; omega)]
    rw [len_eq ⟨s, hd, t, r⟩ (by change t ≤ hd; omega) (by change hd - t < 2 ^ 64; omega)]
    show hd + 1 - t = hd - t + 1
    omega
  · intro hlt hsome
    change t < hd at hlt
    rw [pop_eq_pos _ (by change hd ≥ t; omega)] at hsome
    have hs : (Journal.peek ⟨s, hd, t, r⟩).isSome = true := hsome
    rw [pop_eq_pos _ (by change hd ≥ t; omega)]
    show (if (Journal.peek ⟨s, hd, t, r⟩).isSome then (⟨dbDelete s r, hd, t + 1, r⟩ : Journal) else ⟨dbDelete s r, hd, t, r⟩).len = _
    rw [if_pos hs]
    rw [len_eq ⟨dbDelete s r, hd, t + 1, r⟩ (by change t + 1 ≤ hd; omega)
        (by change hd - (t + 1) < 2 ^ 64; omega)]
    rw [len_eq ⟨s, hd, t, r⟩ (by change t ≤ hd; omega) (by change hd - t < 2 ^ 64; omega)]
    show hd - (t + 1) = hd - t - 1
    omega
  · intro hempty
    change s = [] at hempty
    subst hempty
    rcases Nat.lt_or_ge hd t with h | h
    · exact pop_eq_neg _ (by change ¬ hd ≥ t; omega)
    · rw [pop_eq_pos _ (by change hd ≥ t; omega)]
      have hpeek : Journal.peek ⟨[], hd, t, r⟩ = none := by
        unfold Journal.peek
        rw [if_pos (by change hd ≥ t; omega)]
        rfl
      rw [hpeek]
      rfl

/-- Witness for C6_len_ops at the fresh journal and payload [1]. -/
theorem C6_len_ops_witness :
    (Journal.fresh.tail ≤ Journal.fresh.head ∧
      Journal.fresh.head - Journal.fresh.tail + 1 < 2 ^ 64) ∧
    ((Journal.fresh.push [1]).len = Journal.fresh.len + 1 ∧
      (Journal.fresh.tail < Journal.fresh.head → (Journal.fresh.pop).1.isSome →
        (Journal.fresh.pop).2.len = Journal.fresh.len - 1) ∧
      (Journal.fresh.store = [] → Journal.fresh.pop = (none, Journal.fresh))) :=
  ⟨⟨by decide, by decide⟩, C6_len_ops Journal.fresh [1] (by decide) (by decide)⟩

/-- C3 counterexample: push [1], push [2] onto a fresh journal and pop once
(returning [1]); in the resulting state tail = 1 while reserved_tail = 0.
The next pop returns some [2], yet the store still holds the entry under the
old tail key 1 afterwards — pop deleted the key at reserved_tail (0, a
no-op), not the key at tail. -/
theorem C3_counterexample :
    (popN (pushAll Journal.fresh [[1], [2]]) 1).2.tail = 1 ∧
    (popN (pushAll Journal.fresh [[1], [2]]) 1).2.reserved_tail = 0 ∧
    ((popN (pushAll Journal.fresh [[1], [2]]) 1).2.pop).1 = some [2] ∧
    dbGet ((popN (pushAll Journal.fresh [[1], [2]]) 1).2.pop).2.store 1 = some [2] := by
  refine ⟨by decide, by decide, by decide, by decide⟩

/-- C3 (corrected): when head ≥ tail, pop() behaves as peek() followed by
remove(false) — which deletes the store entry under the reserved_tail key,
not the tail key — and then a tail increment exactly when a value was
returned; after any value-returning pop the store no longer holds an entry
under the reserved_tail key (given duplicate-free store keys), while the old
tail entry survives whenever tail differs from reserved_tail (see the
counterexample).  A pop from a state with head < tail, or from one whose
store is empty, returns none and changes nothing. -/
theorem C3_pop_spec (j : Journal) (hnd : (j.store.map Prod.fst).Nodup) :
    (j.tail ≤ j.head → j.pop = (j.peek,
      if j.peek.isSome
      then { j with store := dbDelete j.store j.reserved_tail, tail := j.tail + 1 }
      else { j with store := dbDelete j.store j.reserved_tail })) ∧
    ((j.pop).1.isSome → dbGet (j.pop).2.store j.reserved_tail = none) ∧
    (j.head < j.tail → j.pop = (none, j)) ∧
    (j.store = [] → j.pop = (none, j)) := by
  obtain ⟨s, hd, t, r⟩ := j
  change (s.map Prod.fst).Nodup at hnd
  refine ⟨?_, ?_, ?_, ?_⟩
  · intro hle
    change t ≤ hd at hle
    exact pop_eq_pos _ (by change hd ≥ t; omega)
  · intro hsome
    rcases Nat.lt_or_ge hd t with h | h
    · rw [pop_eq_neg _ (by change ¬ hd ≥ t; omega)] at hsome
      exact absurd hsome (by simp)
    · rw [pop_eq_pos _ (by change hd ≥ t; omega)]
      show dbGet (if (Journal.peek ⟨s, hd, t, r⟩).isSome then (⟨dbDelete s r, hd, t + 1, r⟩ : Journal) else ⟨dbDelete s r, hd, t, r⟩).store r = none
      by_cases hp : (Journal.peek ⟨s, hd, t, r⟩).isSome
      · rw [if_pos hp]
        exact dbGet_dbDelete_self s r hnd
      · rw [if_neg hp]
        exact dbGet_dbDelete_self s r hnd
  · intro h
    change hd < t at h
    exact pop_eq_neg _ (by change ¬ hd ≥ t; omega)
  · intro hempty
    change s = [] at hempty
    subst hempty
    rcases Nat.lt_or_ge hd t with h | h
    · exact pop_eq_neg _ (by change ¬ hd ≥ t; omega)
    · rw [pop_eq_pos _ (by change hd ≥ t; omega)]
      have hpeek : Journal.peek ⟨[], hd, t, r⟩ = none := by
        unfold Journal.peek
        rw [if_pos (by change hd ≥ t; omega)]
        rfl
      rw [hpeek]
      rfl

/-- Witness for C3_pop_spec at the state reached by pushing [1], [2] onto a
fresh journal and popping once (tail = 1, reserved_tail = 0, key 1 live). -/
theorem C3_pop_spec_witness :
    ((((popN (pushAll Journal.fresh [[1], [2]]) 1).2.store.map Prod.fst).Nodup) ∧
      True) ∧
    (((popN (pushAll Journal.fresh [[1], [2]]) 1).2.tail ≤
          (popN (pushAll Journal.fresh [[1], [2]]) 1).2.head →
        (popN (pushAll Journal.fresh [[1], [2]]) 1).2.pop =
          ((popN (pushAll Journal.fresh [[1], [2]]) 1).2.peek,
            if (popN (pushAll Journal.fresh [[1], [2]]) 1).2.peek.isSome
            then { (popN (pushAll Journal.fresh [[1], [2]]) 1).2 with
                    store := dbDelete (popN (pushAll Journal.fresh [[1], [2]]) 1).2.store
                      (popN (pushAll Journal.fresh [[1], [2]]) 1).2.reserved_tail,
                    tail := (popN (pushAll Journal.fresh [[1], [2]]) 1).2.tail + 1 }
            else { (popN (pushAll Journal.fresh [[1], [2]]) 1).2 with
                    store := dbDelete (popN (pushAll Journal.fresh [[1], [2]]) 1).2.store
                      (popN (pushAll Journal.fresh [[1], [2]]) 1).2.reserved_tail })) ∧
      (((popN (pushAll Journal.fresh [[1], [2]]) 1).2.pop).1.isSome →
        dbGet ((popN (pushAll Journal.fresh [[1], [2]]) 1).2.pop).2.store
          (popN (pushAll Journal.fresh [[1], [2]]) 1).2.reserved_tail = none) ∧
      ((popN (pushAll Journal.fresh [[1], [2]]) 1).2.head <
          (popN (pushAll Journal.fresh [[1], [2]]) 1).2.tail →
        (popN (pushAll Journal.fresh [[1], [2]]) 1).2.pop =
          (none, (popN (pushAll Journal.fresh [[1], [2]]) 1).2)) ∧
      ((popN (pushAll Journal.fresh [[1], [2]]) 1).2.store = [] →
        (popN (pushAll Journal.fresh [[1], [2]]) 1).2.pop =
          (none, (popN (pushAll Journal.fresh [[1], [2]]) 1).2))) :=
  ⟨⟨by decide, trivial⟩, C3_pop_spec (popN (pushAll Journal.fresh [[1], [2]]) 1).2 (by decide)⟩

theorem advance_store_nil (hd t r : Nat) :
    Journal.advance_to_next_reserved ⟨[], hd, t, r⟩ = ⟨[], hd, t, r⟩ := rfl

theorem advance_store_cons (k : Nat) (v : List Nat) (rest : List (Nat × List Nat))
    (hd t r : Nat) :
    Journal.advance_to_next_reserved ⟨(k, v) :: rest, hd, t, r⟩ =
      ⟨(k, v) :: rest, hd, t, k⟩ := rfl

theorem pairwise_head_min (x : Nat) (xs : List Nat) (h : (x :: xs).Pairwise (· < ·)) :
    (x :: xs).min? = some x := by
  rw [List.min?_eq_some_iff']
  refine ⟨List.mem_cons_self x xs, ?_⟩
  intro b hb
  rcases List.mem_cons.mp hb with rfl | hb2
  · exact le_refl b
  · exact le_of_lt ((List.pairwise_cons.mp h).1 b hb2)

theorem getLastD_mem : ∀ (xs : List Nat) (x : Nat), (x :: xs).getLastD 0 ∈ x :: xs := by
  intro xs
  induction xs with
  | nil => intro x; exact List.mem_cons_self x []
  | cons y ys ih =>
    intro x
    have hlast : (x :: y :: ys).getLastD 0 = (y :: ys).getLastD 0 := by
      simp only [List.getLastD_cons]
    rw [hlast]
    exact List.mem_cons_of_mem x (ih y)

theorem sorted_le_getLastD : ∀ (xs : List Nat) (x : Nat), (x :: xs).Pairwise (· < ·) →
    ∀ b ∈ x :: xs, b ≤ (x :: xs).getLastD 0 := by
  intro xs
  induction xs with
  | nil =>
    intro x _ b hb
    rcases List.mem_cons.mp hb with rfl | hb2
    · exact le_refl b
    · exact absurd hb2 (by simp)
  | cons y ys ih =>
    intro x h b hb
    have h2 : (y :: ys).Pairwise (· < ·) := h.sublist (List.sublist_cons_self x (y :: ys))
    have hlast : (x :: y :: ys).getLastD 0 = (y :: ys).getLastD 0 := by
      simp only [List.getLastD_cons]
    rw [hlast]
    rcases List.mem_cons.mp hb with rfl | hb2
    · have hxy : b < y := (List.pairwise_cons.mp h).1 y (List.mem_cons_self y ys)
      have hy : y ≤ (y :: ys).getLastD 0 := ih y h2 y (List.mem_cons_self y ys)
      omega
    · exact ih y h2 b hb2

theorem sorted_max_getLastD {x : Nat} {xs : List Nat} (h : (x :: xs).Pairwise (· < ·)) :
    (x :: xs).max? = some ((x :: xs).getLastD 0) := by
  rw [List.max?_eq_some_iff']
  exact ⟨getLastD_mem xs x, sorted_le_getLastD xs x h⟩

theorem lastFst_eq_getLastD : ∀ (l : List (Nat × List Nat)) (d : Nat),
    lastFst l d = (l.map Prod.fst).getLastD d := by
  intro l
  induction l with
  | nil => intro d; rfl
  | cons x rest ih =>
    intro d
    obtain ⟨k, v⟩ := x
    show lastFst rest k = _
    rw [ih k, List.map_cons, List.getLastD_cons]

/-- The concrete journal used as witness input for C10: a sorted two-entry
store with tail and reserved_tail sitting on key 2. -/
def jC10 : Journal :=
  { store := [(2, [7]), (5, [8])], head := 6, tail := 2, reserved_tail := 2 }

/-- C10: remove(false) — the variant pop() invokes — deletes the store entry
under the reserved_tail key and leaves all three cursors unchanged, while
remove(true) deletes the entry under the tail key, keeps head and tail, and
then moves reserved_tail to the smallest key remaining in the store (leaving
reserved_tail unchanged when the store has become empty). -/
theorem C10_remove_spec (j : Journal) (hs : (j.store.map Prod.fst).Pairwise (· < ·)) :
    j.remove false = { j with store := dbDelete j.store j.reserved_tail } ∧
    (j.remove true).store = dbDelete j.store j.tail ∧
    (j.remove true).head = j.head ∧
    (j.remove true).tail = j.tail ∧
    (dbDelete j.store j.tail = [] → (j.remove true).reserved_tail = j.reserved_tail) ∧
    (dbDelete j.store j.tail ≠ [] →
      ((dbDelete j.store j.tail).map Prod.fst).min? = some (j.remove true).reserved_tail) := by
  obtain ⟨s, hd, t, r⟩ := j
  change (s.map Prod.fst).Pairwise (· < ·) at hs
  rw [remove_true_eq]
  rcases hdel : dbDelete s t with _ | ⟨⟨k, v⟩, rest⟩
  · rw [advance_store_nil]
    exact ⟨rfl, rfl, rfl, rfl, fun _ => rfl, fun hne => absurd rfl hne⟩
  · rw [advance_store_cons]
    refine ⟨rfl, rfl, rfl, rfl, fun hc => absurd hc (by simp), fun _ => ?_⟩
    show (((k, v) :: rest).map Prod.fst).min? = some k
    have hsub : List.Sublist (((k, v) :: rest).map Prod.fst) (s.map Prod.fst) := by
      rw [← hdel]
      exact (dbDelete_sublist s t).map Prod.fst
    have hs2 : (((k, v) :: rest).map Prod.fst).Pairwise (· < ·) := hs.sublist hsub
    rw [List.map_cons] at hs2
    exact pairwise_head_min k (rest.map Prod.fst) hs2

/-- Witness for C10_remove_spec at the two-entry journal jC10. -/
theorem C10_remove_spec_witness :
    (jC10.store.map Prod.fst).Pairwise (· < ·) ∧
    (jC10.remove false = { jC10 with store := dbDelete jC10.store jC10.reserved_tail } ∧
      (jC10.remove true).store = dbDelete jC10.store jC10.tail ∧
      (jC10.remove true).head = jC10.head ∧
      (jC10.remove true).tail = jC10.tail ∧
      (dbDelete jC10.store jC10.tail = [] →
        (jC10.remove true).reserved_tail = jC10.reserved_tail) ∧
      (dbDelete jC10.store jC10.tail ≠ [] →
        ((dbDelete jC10.store jC10.tail).map Prod.fst).min? =
          some (jC10.remove true).reserved_tail)) :=
  ⟨by decide, C10_remove_spec jC10 (by decide)⟩

/-- C4 counterexample: recovery on a store holding exactly one key, with id 5,
sets head = tail = 5 but sets reserved_tail to 0, not to 5 as the claim
states. -/
theorem C4_counterexample :
    read_keys [(5, [9])] = some (5, 5, 0) ∧ read_keys [(5, [9])] ≠ some (5, 5, 5) := by
  refine ⟨by decide, by decide⟩

/-- C4 (corrected): on a store with duplicate-free ascending keys the recovery
scan behaves as follows.  With exactly two keys it panics — the source calls
iter.last().unwrap() after two next() calls have exhausted the iterator
(modelled as none).  In every other case it succeeds with head = the largest
(last) key id and tail = the smallest (first) key id — no keys gives
head = tail = 0, one key k gives head = tail = k — but reserved_tail is set
to key id 0 in every branch, never to the found key's id (singleton case)
nor to the smallest key's id as the claim states.  On a sorted nonempty
store the first key is indeed the minimum and the last key the maximum. -/
theorem C4_read_keys_spec (s : List (Nat × List Nat))
    (hs : (s.map Prod.fst).Pairwise (· < ·)) :
    (s.length = 2 → read_keys s = none) ∧
    (s.length ≠ 2 →
      read_keys s = some ((s.map Prod.fst).getLastD 0, (s.map Prod.fst).headD 0, 0)) ∧
    (s ≠ [] → (s.map Prod.fst).min? = some ((s.map Prod.fst).headD 0) ∧
      (s.map Prod.fst).max? = some ((s.map Prod.fst).getLastD 0)) := by
  refine ⟨?_, ?_, ?_⟩
  · intro h2
    cases s with
    | nil => exact absurd h2 (by decide)
    | cons x s1 =>
      obtain ⟨k1, v1⟩ := x
      cases s1 with
      | nil => exact absurd h2 (by simp only [List.length_cons, List.length_nil]; omega)
      | cons y s2 =>
        obtain ⟨k2, v2⟩ := y
        cases s2 with
        | nil => rfl
        | cons z s3 =>
          exfalso
          simp only [List.length_cons] at h2
          omega
  · intro hne
    cases s with
    | nil => rfl
    | cons x s1 =>
      obtain ⟨k, v⟩ := x
      cases s1 with
      | nil => rfl
      | cons y s2 =>
        obtain ⟨k2, v2⟩ := y
        cases s2 with
        | nil => exact absurd rfl hne
        | cons z s3 =>
          obtain ⟨k3, v3⟩ := z
          show some (lastFst s3 k3, k, 0) = _
          rw [lastFst_eq_getLastD s3 k3]
          have hr : (((k, v) :: (k2, v2) :: (k3, v3) :: s3).map Prod.fst).getLastD 0 =
              (s3.map Prod.fst).getLastD k3 := by
            simp only [List.map_cons, List.getLastD_cons]
          rw [hr]
          rfl
  · intro hne
    cases s with
    | nil => exact absurd rfl hne
    | cons x rest =>
      obtain ⟨k, v⟩ := x
      rw [List.map_cons] at hs ⊢
      constructor
      · show (k :: rest.map Prod.fst).min? = some ((k :: rest.map Prod.fst).headD 0)
        exact pairwise_head_min k (rest.map Prod.fst) hs
      · exact sorted_max_getLastD hs

/-- Witness for C4_read_keys_spec at the sorted three-entry store with keys
3, 5 and 7 (three keys, so the scan succeeds). -/
theorem C4_read_keys_spec_witness :
    (([(3, [1]), (5, [9]), (7, [8])] : List (Nat × List Nat)).map Prod.fst).Pairwise
      (· < ·) ∧
    ((([(3, [1]), (5, [9]), (7, [8])] : List (Nat × List Nat)).length = 2 →
        read_keys [(3, [1]), (5, [9]), (7, [8])] = none) ∧
      (([(3, [1]), (5, [9]), (7, [8])] : List (Nat × List Nat)).length ≠ 2 →
        read_keys [(3, [1]), (5, [9]), (7, [8])] =
          some
            ((([(3, [1]), (5, [9]), (7, [8])] : List (Nat × List Nat)).map
                Prod.fst).getLastD 0,
              (([(3, [1]), (5, [9]), (7, [8])] : List (Nat × List Nat)).map
                Prod.fst).headD 0, 0)) ∧
      (([(3, [1]), (5, [9]), (7, [8])] : List (Nat × List Nat)) ≠ [] →
        (([(3, [1]), (5, [9]), (7, [8])] : List (Nat × List Nat)).map Prod.fst).min? =
            some
              ((([(3, [1]), (5, [9]), (7, [8])] : List (Nat × List Nat)).map
                Prod.fst).headD 0) ∧
          (([(3, [1]), (5, [9]), (7, [8])] : List (Nat × List Nat)).map Prod.fst).max? =
            some
              ((([(3, [1]), (5, [9]), (7, [8])] : List (Nat × List Nat)).map
                Prod.fst).getLastD 0))) :=
  ⟨by decide, C4_read_keys_spec [(3, [1]), (5, [9]), (7, [8])] (by decide)⟩

theorem dbPut_mem : ∀ (s : List (Nat × List Nat)) (k : Nat) (v : List Nat)
    (x : Nat × List Nat), x ∈ dbPut s k v → x ∈ s ∨ x = (k, v) := by
  intro s
  induction s with
  | nil =>
    intro k v x hx
    simp only [dbPut] at hx
    right
    simpa using hx
  | cons y rest ih =>
    intro k v x hx
    obtain ⟨k', v'⟩ := y
    simp only [dbPut] at hx
    by_cases h1 : k < k'
    · rw [if_pos h1] at hx
      rcases List.mem_cons.mp hx with rfl | hx2
      · right; rfl
      · left; exact hx2
    · rw [if_neg h1] at hx
      by_cases h2 : k = k'
      · rw [if_pos h2] at hx
        rcases List.mem_cons.mp hx with rfl | hx2
        · right; rfl
        · left; exact List.mem_cons_of_mem _ hx2
      · rw [if_neg h2] at hx
        rcases List.mem_cons.mp hx with rfl | hx2
        · left; exact List.mem_cons_self _ _
        · rcases ih k v x hx2 with hmem | rfl
          · left; exact List.mem_cons_of_mem _ hmem
          · right; rfl

theorem dbGet_eq_some_mem : ∀ (s : List (Nat × List Nat)) (i : Nat) (v : List Nat),
    dbGet s i = some v → (i, v) ∈ s := by
  intro s
  induction s with
  | nil =>
    intro i v h
    exact absurd h (by simp [dbGet])
  | cons y rest ih =>
    intro i v h
    obtain ⟨k', v'⟩ := y
    simp only [dbGet] at h
    by_cases h1 : i = k'
    · rw [if_pos h1] at h
      subst h1
      have hv : v' = v := Option.some.inj h
      subst hv
      exact List.mem_cons_self _ _
    · rw [if_neg h1] at h
      exact List.mem_cons_of_mem _ (ih i v h)

/-- Structural invariant of the states reachable from a fresh journal by push
and pop: the reservation cursor never leaves 0, tail never passes head, and
every live key id lies strictly below head. -/
theorem reachable_inv (j : Journal) (h : Reachable j) :
    j.reserved_tail = 0 ∧ j.tail ≤ j.head ∧ ∀ x ∈ j.store, x.1 < j.head := by
  induction h with
  | fresh =>
    exact ⟨rfl, le_refl 0, fun x hx => absurd hx (by simp [Journal.fresh])⟩
  | push j p hj ih =>
    obtain ⟨ih1, ih2, ih3⟩ := ih
    refine ⟨ih1, ?_, ?_⟩
    · show j.tail ≤ j.head + 1
      omega
    · intro x hx
      show x.1 < j.head + 1
      rcases dbPut_mem j.store j.head p x hx with hmem | rfl
      · have := ih3 x hmem
        omega
      · show j.head < j.head + 1
        omega
  | pop j hj ih =>
    obtain ⟨ih1, ih2, ih3⟩ := ih
    rcases Nat.lt_or_ge j.head j.tail with hlt | hge
    · rw [pop_eq_neg _ (by omega)]
      exact ⟨ih1, ih2, ih3⟩
    · rw [pop_eq_pos _ hge]
      by_cases hp : j.peek.isSome
      · rw [if_pos hp]
        have htl : j.tail < j.head := by
          obtain ⟨v, hv⟩ := Option.isSome_iff_exists.mp hp
          have hv2 : dbGet j.store j.tail = some v := by
            have hpk : j.peek = dbGet j.store j.tail := by
              unfold Journal.peek
              rw [if_pos hge]
            rw [← hpk]
            exact hv
          exact ih3 (j.tail, v) (dbGet_eq_some_mem j.store j.tail v hv2)
        refine ⟨ih1, ?_, ?_⟩
        · show j.tail + 1 ≤ j.head
          omega
        · intro x hx
          show x.1 < j.head
          exact ih3 x ((dbDelete_sublist j.store j.reserved_tail).subset hx)
      · rw [if_neg hp]
        refine ⟨ih1, ih2, ?_⟩
        intro x hx
        show x.1 < j.head
        exact ih3 x ((dbDelete_sublist j.store j.reserved_tail).subset hx)

/-- C5 counterexample: after one push and one pop from a fresh journal — a
reachable state — tail = 1 while reserved_tail = 0, so the claimed
tail ≤ reserved_tail direction of the invariant fails. -/
theorem C5_counterexample :
    Reachable ((Journal.fresh.push [1]).pop).2 ∧
    ¬ (((Journal.fresh.push [1]).pop).2.tail ≤
        ((Journal.fresh.push [1]).pop).2.reserved_tail) :=
  ⟨Reachable.pop _ (Reachable.push _ [1] Reachable.fresh), by decide⟩

/-- C5 (corrected): in every state reachable from a freshly created journal by
push and pop, the cursor invariant that actually holds is
reserved_tail ≤ tail ≤ head with reserved_tail identically 0 — pop never
advances the reservation cursor — while the claimed direction
tail ≤ reserved_tail fails after a single push and pop (see the
counterexample).  Recovery is excluded from the amended invariant: after a
reopen even tail ≤ head can fail on the next pop, because read_keys sets head
to the last live key instead of one past it. -/
theorem C5_cursor_invariant (j : Journal) (h : Reachable j) :
    j.reserved_tail = 0 ∧ j.reserved_tail ≤ j.tail ∧ j.tail ≤ j.head := by
  obtain ⟨h1, h2, _⟩ := reachable_inv j h
  exact ⟨h1, by omega, h2⟩

/-- Witness for C5_cursor_invariant at the reachable state after one push and
one pop. -/
theorem C5_cursor_invariant_witness :
    Reachable ((Journal.fresh.push [1]).pop).2 ∧
    (((Journal.fresh.push [1]).pop).2.reserved_tail = 0 ∧
      ((Journal.fresh.push [1]).pop).2.reserved_tail ≤
        ((Journal.fresh.push [1]).pop).2.tail ∧
      ((Journal.fresh.push [1]).pop).2.tail ≤ ((Journal.fresh.push [1]).pop).2.head) :=
  ⟨Reachable.pop _ (Reachable.push _ [1] Reachable.fresh),
    C5_cursor_invariant _ (Reachable.pop _ (Reachable.push _ [1] Reachable.fresh))⟩

theorem leBytes_length : ∀ (w n : Nat), (leBytes w n).length = w := by
  intro w
  induction w with
  | zero => intro n; rfl
  | succ w ih =>
    intro n
    show (leBytes w (n / 256)).length + 1 = w + 1
    rw [ih]

theorem leVal_leBytes : ∀ (w n : Nat), n < 256 ^ w → leVal (leBytes w n) = n := by
  intro w
  induction w with
  | zero =>
    intro n h
    have h1 : (256 : Nat) ^ 0 = 1 := pow_zero 256
    rw [h1] at h
    show 0 = n
    omega
  | succ w ih =>
    intro n h
    have hdiv : n / 256 < 256 ^ w := by
      have h2 : (256 : Nat) ^ (w + 1) = 256 ^ w * 256 := pow_succ 256 w
      rw [h2] at h
      omega
    show (n % 256) + 256 * leVal (leBytes w (n / 256)) = n
    rw [ih (n / 256) hdiv]
    omega

/-- C8: decoding the 16-byte encoding of a key yields back exactly the same
(namespace, id) pair, for every valid pair — both KeyType values and every id
representable in a u64. -/
theorem C8_codec_roundtrip (kt : KeyType) (i : Nat) (h : i < 2 ^ 64) :
    decodeKey (encodeKey ⟨i, kt⟩) = some ⟨i, kt⟩ := by
  have hi : i < 256 ^ 8 := by
    have h28 : (256 : Nat) ^ 8 = 2 ^ 64 := by norm_num
    omega
  have hk : ktTag kt < 256 ^ 8 := by
    cases kt <;> decide
  have hlen : (encodeKey ⟨i, kt⟩).length = 16 := by
    unfold encodeKey
    rw [List.length_append, leBytes_length, leBytes_length]
  have htake : (encodeKey ⟨i, kt⟩).take 8 = leBytes 8 i := by
    unfold encodeKey
    exact List.take_left' (leBytes_length 8 i)
  have hdrop : (encodeKey ⟨i, kt⟩).drop 8 = leBytes 8 (ktTag kt) := by
    unfold encodeKey
    exact List.drop_left' (leBytes_length 8 i)
  unfold decodeKey
  rw [hlen, if_pos rfl, hdrop, htake]
  rw [leVal_leBytes 8 (ktTag kt) hk, leVal_leBytes 8 i hi]
  cases kt
  · rfl
  · rfl

/-- Witness for C8_codec_roundtrip at the Chunk namespace and id 5. -/
theorem C8_codec_roundtrip_witness :
    5 < 2 ^ 64 ∧ decodeKey (encodeKey ⟨5, KeyType.Chunk⟩) = some ⟨5, KeyType.Chunk⟩ :=
  ⟨by decide, C8_codec_roundtrip KeyType.Chunk 5 (by decide)⟩

/-- C9 counterexample: for the Queue-namespace keys with ids 1 and 256, the
logical comparator orders id 1 before id 256, while byte-lexicographic
comparison of their 16-byte encodings orders them the other way — the raw
id-first little-endian layout does not preserve the logical order. -/
theorem C9_counterexample :
    Key.cmp ⟨1, KeyType.Queue⟩ ⟨256, KeyType.Queue⟩ = Ordering.lt ∧
    lexCmp (encodeKey ⟨1, KeyType.Queue⟩) (encodeKey ⟨256, KeyType.Queue⟩) =
      Ordering.gt := by
  refine ⟨by decide, by decide⟩

/-- C9 (corrected): the logical comparator — the Ord implementation the store
is opened with through OrdComparator — does order keys by namespace first
(most significant) and then by sequence id: cmp returns lt exactly when the
namespace discriminant is smaller or the namespaces are equal and the id is
smaller, and returns eq exactly on equal keys.  But byte-lexicographic
comparison of the transmute-based encodings does not agree with that order
(see the counterexample): the raw layout serializes the id field first and
little-endian, so correctness depends on the supplied comparator, not on the
encoding's byte order. -/
theorem C9_cmp_lexicographic (a b : Key) :
    (Key.cmp a b = Ordering.lt ↔
      (ktTag a.keytype < ktTag b.keytype ∨ (a.keytype = b.keytype ∧ a.id < b.id))) ∧
    (Key.cmp a b = Ordering.eq ↔ a = b) := by
  obtain ⟨ia, ka⟩ := a
  obtain ⟨ib, kb⟩ := b
  refine ⟨?_, ?_⟩ <;> cases ka <;> cases kb <;>
    simp only [Key.cmp, ktTag, Key.mk.injEq] <;> split_ifs <;> simp_all <;> omega
